import Mathlib

/-!
# Verification of `glue_jupyter/state_traitlets_helpers.py`

A shallow embedding of the state-serialization helpers of glue-jupyter:
`state_to_dict`, `update_state_from_dict`, and the `GlueState` trait's
`validate`/`set` methods, together with proofs of the specification's
claims about them.

State objects (glue `State` instances) are modelled as finite association
lists of observable (callback) properties.  Each property carries its
declared update priority and holds either a plain Python value (possibly a
dict, since `setattr` is untyped) or a `CallbackList` of items, where each
item is either a nested state object or a plain value.  Python dict
iteration order is modelled by list order.
-/

namespace GlueJupyter

/-- The sentinel marker string `MAGIC_IGNORE` from the source. -/
def MAGIC_IGNORE : String := "611cfa3b-ebb5-42d2-b5c7-ba9bce8b51a4"

/-- Primitive scalar values (JSON-representable leaves). -/
inductive Val where
  | str : String → Val
  | int : Int → Val
  | bool : Bool → Val
  | null : Val
deriving DecidableEq, Repr

/-- JSON-like values: the shape of change records and of `state_to_dict`
output.  `smap` is a dict keyed by strings (a serialized state), `imap` a
dict keyed by integer indices (a serialized `CallbackList`).  Key order of
a Python dict is the list order. -/
inductive JVal where
  | prim : Val → JVal
  | smap : List (String × JVal) → JVal
  | imap : List (Nat × JVal) → JVal

/-- The test `changes[name] != MAGIC_IGNORE` from the source (negated):
a Python value equals the sentinel exactly when it is that string. -/
def isMagic : JVal → Bool
  | .prim (.str s) => s = MAGIC_IGNORE
  | _ => false

mutual
/-- An element of a `CallbackList` property: either a nested glue `State`
object or a plain (non-state) Python value. -/
inductive Item where
  | state : StateObj → Item
  | plain : JVal → Item

/-- The current value held by an observable property: either a plain value
(scalars; also dicts, since `setattr` can store any object) or a
`CallbackList` of items. -/
inductive PropVal where
  | scalar : JVal → PropVal
  | clist : List Item → PropVal

/-- A glue `State` object: a finite list of observable (callback)
properties, each with its name, declared update priority
(`_update_priority`) and current value. -/
inductive StateObj where
  | mk : List (String × Int × PropVal) → StateObj
end

/-- The property list of a state object. -/
def StateObj.props : StateObj → List (String × Int × PropVal)
  | .mk ps => ps

/-- First association of a name in a property list (Python attributes are
unique, so the first match is the attribute). -/
def lookupProp : List (String × Int × PropVal) → String → Option (Int × PropVal)
  | [], _ => none
  | (n, p, v) :: rest, name => if n = name then some (p, v) else lookupProp rest name

/-- Model of `getattr(state, name)` restricted to callback properties. -/
def getProp (s : StateObj) (name : String) : Option PropVal :=
  (lookupProp s.props name).map Prod.snd

/-- glue's `State.is_callback_property(name)`: whether `name` is one of the
object's observable (callback) properties. -/
def is_callback_property (s : StateObj) (name : String) : Bool :=
  (lookupProp s.props name).isSome

/-- glue's `State._update_priority(name)`: the declared integer priority of
a property. -/
def update_priority (s : StateObj) (name : String) : Int :=
  match lookupProp s.props name with
  | some (p, _) => p
  | none => 0

/-- Model of `setattr(state, name, v)` on an existing callback property: replace the
value at the first occurrence of `name`, keeping the declared priority. -/
def setPropList (name : String) (v : PropVal) : List (String × Int × PropVal) → List (String × Int × PropVal)
  | [] => []
  | (n, p, old) :: rest =>
      if n = name then (n, p, v) :: rest else (n, p, old) :: setPropList name v rest

/-- Model of `setattr` lifted to state objects. -/
def setProp (s : StateObj) (name : String) (v : PropVal) : StateObj :=
  .mk (setPropList name v s.props)

/-- The (name, priority) skeleton of a state object; patching never changes
it. -/
def skeleton (s : StateObj) : List (String × Int) :=
  s.props.map (fun e => (e.1, e.2.1))

/-- Lookup of a key in a change record (Python `changes[name]`). -/
def dictLookup : List (String × JVal) → String → Option JVal
  | [], _ => none
  | (k, v) :: rest, name => if k = name then some v else dictLookup rest name

/-- First association of an integer key in an index map. -/
def assocNat : List (Nat × JVal) → Nat → Option JVal
  | [], _ => none
  | (k, v) :: rest, i => if k = i then some v else assocNat rest i

/-- Lookup of an integer key in a sub-mapping (`i in changes[name]` /
`changes[name][i]`).  Only an `imap` can contain an integer key. -/
def imapLookup : JVal → Nat → Option JVal
  | .imap l, i => assocNat l i
  | _, _ => none

/-- View a JSON value as a change record for a nested state (a non-dict
value yields the empty record, on which patching is a no-op). -/
def asRecord : JVal → List (String × JVal)
  | .smap l => l
  | _ => []

/-- Python's `name.startswith('_')`: the first character of the name is an
underscore. -/
def underscorePrefixed (s : String) : Bool :=
  match s.data with
  | [] => false
  | c :: _ => c = '_'

mutual
/-- The function `state_to_dict(state)` from the source: enumerate the observable
property names (skipping names that begin with an underscore), serializing
a `CallbackList` to a mapping from 0-based index to the item (recursively
serialized when the item is itself a `State`). -/
def state_to_dict : StateObj → List (String × JVal)
  | .mk ps => serializeProps ps

/-- The property loop of `state_to_dict`. -/
def serializeProps : List (String × Int × PropVal) → List (String × JVal)
  | [] => []
  | (name, _, v) :: rest =>
      if underscorePrefixed name then serializeProps rest
      else (name, serializeProp v) :: serializeProps rest

/-- Serialization of one property value. -/
def serializeProp : PropVal → JVal
  | .scalar jv => jv
  | .clist items => .imap (serializeItems 0 items)

/-- The dict comprehension over `enumerate(item)` in the serializer,
producing index-keyed entries starting at `i`. -/
def serializeItems : Nat → List Item → List (Nat × JVal)
  | _, [] => []
  | i, it :: rest => (i, serializeItem it) :: serializeItems (i + 1) rest

/-- One item of a `CallbackList`: recursive serialization for states, the
raw value otherwise. -/
def serializeItem : Item → JVal
  | .state sub => .smap (state_to_dict sub)
  | .plain jv => jv
end

/-- Observable assignment events fired while patching: `set name v` is
`setattr(state, name, v)`, `setIndex name i v` is `callback_list[i] = v`
on the `CallbackList` of property `name`, and `subUpdate name i` is the
recursive `callback_list[i].update_from_dict(...)` call. -/
inductive Event where
  | set : String → JVal → Event
  | setIndex : String → Nat → JVal → Event
  | subUpdate : String → Nat → Event

/-- The top-level property name an event belongs to. -/
def Event.name : Event → String
  | .set n _ => n
  | .setIndex n _ _ => n
  | .subUpdate n _ => n

/-- Insert into a descending-sorted list, keeping it descending. -/
def insertDesc (x : Int) : List Int → List Int
  | [] => [x]
  | y :: ys => if y ≤ x then x :: y :: ys else y :: insertDesc x ys

/-- Model of `sorted(keys, reverse=True)`: sort distinct priorities in descending
order. -/
def sortDesc : List Int → List Int
  | [] => []
  | x :: xs => insertDesc x (sortDesc xs)

/-- The keys of the incoming record that the target state recognizes as
callback properties, in record (dict-insertion) order: the names appended
into `groups` by the first loop of `update_state_from_dict`. -/
def recognizedNames (s : StateObj) (changes : List (String × JVal)) : List String :=
  (changes.map Prod.fst).filter (fun n => is_callback_property s n)

/-- The distinct priorities of the recognized names, in first-appearance
order: the keys of the `groups` defaultdict. -/
def groupPriorities (s : StateObj) (changes : List (String × JVal)) : List Int :=
  ((recognizedNames s changes).map (update_priority s)).dedup

/-- The order in which `update_state_from_dict` processes property names:
`for priority in sorted(groups, reverse=True): for name in groups[priority]`.
Each priority group keeps the record's insertion order. -/
def processOrder (s : StateObj) (changes : List (String × JVal)) : List String :=
  (sortDesc (groupPriorities s changes)).flatMap
    (fun p => (recognizedNames s changes).filter (fun n => update_priority s n = p))

theorem dictLookup_sizeOf {l : List (String × JVal)} {k : String} {v : JVal}
    (h : dictLookup l k = some v) : sizeOf v < sizeOf l := by
  induction l with
  | nil => simp [dictLookup] at h
  | cons hd tl ih =>
      obtain ⟨a, b⟩ := hd
      simp only [dictLookup] at h
      split at h
      · cases h
        simp only [List.cons.sizeOf_spec, Prod.mk.sizeOf_spec]
        omega
      · have := ih h
        simp only [List.cons.sizeOf_spec, Prod.mk.sizeOf_spec]
        omega

theorem assocNat_sizeOf {l : List (Nat × JVal)} {i : Nat} {v : JVal}
    (h : assocNat l i = some v) : sizeOf v < sizeOf l := by
  induction l with
  | nil => simp [assocNat] at h
  | cons hd tl ih =>
      obtain ⟨a, b⟩ := hd
      simp only [assocNat] at h
      split at h
      · cases h
        simp only [List.cons.sizeOf_spec, Prod.mk.sizeOf_spec]
        omega
      · have := ih h
        simp only [List.cons.sizeOf_spec, Prod.mk.sizeOf_spec]
        omega

theorem imapLookup_sizeOf {jv : JVal} {i : Nat} {v : JVal}
    (h : imapLookup jv i = some v) : sizeOf v < sizeOf jv := by
  cases jv with
  | prim w => simp [imapLookup] at h
  | smap l => simp [imapLookup] at h
  | imap l =>
      have := assocNat_sizeOf (l := l) (i := i) (v := v) h
      simp only [JVal.imap.sizeOf_spec]
      omega

theorem list_sizeOf_pos {α : Type} [SizeOf α] (l : List α) : 0 < sizeOf l := by
  cases l <;> simp_arith

theorem asRecord_sizeOf (jv : JVal) : sizeOf (asRecord jv) < sizeOf jv := by
  cases jv with
  | prim w =>
      cases w <;> simp [asRecord]
  | smap l => simp [asRecord]
  | imap l =>
      have := list_sizeOf_pos l
      simp only [asRecord, JVal.imap.sizeOf_spec, List.nil.sizeOf_spec]
      omega

mutual
/-- The function `update_state_from_dict(state, changes)` from the source.  Returns the
patched state together with the list of assignment events, in order.  The
nested `callback_list[i].update_from_dict(...)` call is glue's
`State.update_from_dict`; modelled from the spec as recursing into the
patcher (§4.3: "recurse (4.3) if the live item at that index is a nested
state object"). -/
def update_state_from_dict (s : StateObj) (changes : List (String × JVal)) :
    StateObj × List Event :=
  if changes.isEmpty then (s, [])
  else applyNames s changes (processOrder s changes)
termination_by (sizeOf changes, 2, 0)
decreasing_by
  apply Prod.Lex.right
  apply Prod.Lex.left
  omega

/-- The two nested loops over priority groups: process each name in order,
threading the mutated state. -/
def applyNames (s : StateObj) (changes : List (String × JVal)) :
    List String → StateObj × List Event
  | [] => (s, [])
  | name :: rest =>
      let st := applyName s changes name
      let k := applyNames st.1 changes rest
      (k.1, st.2 ++ k.2)
termination_by names => (sizeOf changes, 1, names.length)
decreasing_by
  · apply Prod.Lex.right
    apply Prod.Lex.left
    omega
  · apply Prod.Lex.right
    apply Prod.Lex.right
    simp

/-- The body of the inner loop for a single name: patch a `CallbackList`
index-wise, otherwise assign unless the incoming value is the sentinel. -/
def applyName (s : StateObj) (changes : List (String × JVal)) (name : String) :
    StateObj × List Event :=
  match h : dictLookup changes name with
  | none => (s, [])
  | some incoming =>
      match getProp s name with
      | none => (s, [])
      | some (.clist items) =>
          let r := patchItems incoming name 0 items
          (setProp s name (.clist r.1), r.2)
      | some (.scalar _) =>
          if isMagic incoming then (s, [])
          else (setProp s name (.scalar incoming), [Event.set name incoming])
termination_by (sizeOf changes, 0, 0)
decreasing_by
  apply Prod.Lex.left
  exact dictLookup_sizeOf h

/-- The loop `for i in range(len(callback_list))`: rebuild the live list, recursing
into nested states and assigning plain items for each index present in the
incoming sub-mapping. -/
def patchItems (incoming : JVal) (name : String) (i : Nat) :
    List Item → List Item × List Event
  | [] => ([], [])
  | it :: rest =>
      match h : imapLookup incoming i with
      | none =>
          let r := patchItems incoming name (i + 1) rest
          (it :: r.1, r.2)
      | some jv =>
          match it with
          | .state sub =>
              let sub' := (update_state_from_dict sub (asRecord jv)).1
              let r := patchItems incoming name (i + 1) rest
              (Item.state sub' :: r.1, Event.subUpdate name i :: r.2)
          | .plain _ =>
              let r := patchItems incoming name (i + 1) rest
              (Item.plain jv :: r.1, Event.setIndex name i jv :: r.2)
termination_by items => (sizeOf incoming, 3, items.length)
decreasing_by
  all_goals first
    | (apply Prod.Lex.right
       apply Prod.Lex.right
       simp)
    | (apply Prod.Lex.left
       exact lt_trans (asRecord_sizeOf jv) (imapLookup_sizeOf h))
end

/-- A Python value assigned to a `GlueState`-typed trait slot: `None`, a
glue `State` instance, or any other (non-state) object. -/
inductive SlotValue where
  | pynone : SlotValue
  | state : StateObj → SlotValue
  | other : Val → SlotValue

/-- The outcome of `GlueState.set`: the value stored by `super().set` (the
store is unconditional) and the exception, if any, raised afterwards. -/
structure SetOutcome where
  stored : SlotValue
  error : Option String

namespace GlueState

/-- The method `GlueState.validate(self, obj, value)` from the source: accept `None`
or a `State` instance unchanged, otherwise raise
`traitlets.TraitError('value should be a glue State instance')`. -/
def validate : SlotValue → Except String SlotValue
  | .pynone => .ok .pynone
  | .state s => .ok (.state s)
  | .other _ => .error "value should be a glue State instance"

/-- The method `GlueState.set(self, obj, state)` from the source: `super().set` stores
the value, then `state.add_global_callback(...)` is called with no `None`
guard.  Modelled from the spec and Python semantics: `add_global_callback`
is an attribute of glue `State` objects only, so the call raises an
`AttributeError` whenever the stored value is not a state instance. -/
def set : SlotValue → SetOutcome
  | .state s => { stored := .state s, error := none }
  | .pynone => { stored := .pynone,
                 error := some "AttributeError: add_global_callback" }
  | .other v => { stored := .other v,
                  error := some "AttributeError: add_global_callback" }

end GlueState

/-- A JSON value is a primitive leaf: a scalar that is not the sentinel
string (the sentinel stands in for an opaque reference, which the
round-trip claim excludes). -/
def isPrimitive : JVal → Bool
  | .prim (.str s) => ¬ s = MAGIC_IGNORE
  | .prim _ => true
  | _ => false

/-- A `CallbackList` item is a primitive plain value (not a nested state). -/
def primitiveItem : Item → Bool
  | .plain jv => isPrimitive jv
  | .state _ => false

/-- A property value holds only primitive values. -/
def primitiveProp : PropVal → Bool
  | .scalar jv => isPrimitive jv
  | .clist items => items.all primitiveItem

/-- Every observable property of the state holds only primitive values. -/
def primitiveState (s : StateObj) : Bool :=
  s.props.all (fun e => primitiveProp e.2.2)

/-- Two items have the same shape for patching purposes: both plain
(nested states are outside the primitive round-trip claim). -/
def shapeMatchItem : Item → Item → Bool
  | .plain _, .plain _ => true
  | _, _ => false

/-- Two property values have the same shape: both scalars, or both
`CallbackList`s of the same length with item-wise matching shapes. -/
def shapeMatchProp : PropVal → PropVal → Bool
  | .scalar _, .scalar _ => true
  | .clist a, .clist b =>
      a.length = b.length && (a.zip b).all (fun e => shapeMatchItem e.1 e.2)
  | _, _ => false

/-- A fresh default-constructed state of the same shape as the original:
the same property names with the same declared priorities, in the same
order, with value-wise matching shapes (defaults may differ). -/
def shapeMatch (a b : StateObj) : Bool :=
  a.props.length = b.props.length &&
  ((a.props.zip b.props).all fun e =>
    e.1.1 = e.2.1 && e.1.2.1 = e.2.2.1 && shapeMatchProp e.1.2.2 e.2.2.2)

/-- No property name starts with an underscore (serialization covers
exactly the non-underscore-prefixed observable properties, spec §3/§4.1). -/
def allSerializable (s : StateObj) : Bool :=
  s.props.all (fun e => ¬ underscorePrefixed e.1)

/-- The property names of a state, in declaration order. -/
def propNames (s : StateObj) : List String :=
  s.props.map Prod.fst

/-! ## Equation lemmas for the patcher -/

theorem update_empty (s : StateObj) : update_state_from_dict s [] = (s, []) := by
  simp [update_state_from_dict]

theorem update_nonempty (s : StateObj) {c : List (String × JVal)} (h : c.isEmpty = false) :
    update_state_from_dict s c = applyNames s c (processOrder s c) := by
  rw [update_state_from_dict]
  simp [h]

theorem applyNames_nil (s : StateObj) (c : List (String × JVal)) :
    applyNames s c [] = (s, []) := by
  simp [applyNames]

theorem applyNames_cons (s : StateObj) (c : List (String × JVal)) (n : String)
    (rest : List String) :
    applyNames s c (n :: rest) =
      ((applyNames (applyName s c n).1 c rest).1,
       (applyName s c n).2 ++ (applyNames (applyName s c n).1 c rest).2) := by
  simp [applyNames]

theorem applyName_no_key {s : StateObj} {c : List (String × JVal)} {n : String}
    (h : dictLookup c n = none) : applyName s c n = (s, []) := by
  simp only [applyName]
  split
  · rfl
  · rename_i inc2 heq
    rw [h] at heq
    exact Option.noConfusion heq

theorem applyName_unknown {s : StateObj} {c : List (String × JVal)} {n : String}
    {inc : JVal} (h : dictLookup c n = some inc) (h2 : getProp s n = none) :
    applyName s c n = (s, []) := by
  simp only [applyName]
  split
  · rfl
  · rename_i inc2 heq
    rw [h] at heq
    injection heq with h4
    subst h4
    simp [h2]

theorem applyName_scalar_magic {s : StateObj} {c : List (String × JVal)} {n : String}
    {inc : JVal} {old : JVal} (h : dictLookup c n = some inc)
    (h2 : getProp s n = some (.scalar old)) (h3 : isMagic inc = true) :
    applyName s c n = (s, []) := by
  simp only [applyName]
  split
  · rfl
  · rename_i inc2 heq
    rw [h] at heq
    injection heq with h4
    subst h4
    simp [h2, h3]

theorem applyName_scalar_assign {s : StateObj} {c : List (String × JVal)} {n : String}
    {inc : JVal} {old : JVal} (h : dictLookup c n = some inc)
    (h2 : getProp s n = some (.scalar old)) (h3 : isMagic inc = false) :
    applyName s c n = (setProp s n (.scalar inc), [Event.set n inc]) := by
  simp only [applyName]
  split
  · rename_i heq
    rw [h] at heq
    exact Option.noConfusion heq
  · rename_i inc2 heq
    rw [h] at heq
    injection heq with h4
    subst h4
    simp [h2, h3]

theorem applyName_clist {s : StateObj} {c : List (String × JVal)} {n : String}
    {inc : JVal} {items : List Item} (h : dictLookup c n = some inc)
    (h2 : getProp s n = some (.clist items)) :
    applyName s c n =
      (setProp s n (.clist (patchItems inc n 0 items).1), (patchItems inc n 0 items).2) := by
  simp only [applyName]
  split
  · rename_i heq
    rw [h] at heq
    exact Option.noConfusion heq
  · rename_i inc2 heq
    rw [h] at heq
    injection heq with h4
    subst h4
    simp [h2]

theorem patchItems_nil (inc : JVal) (n : String) (i : Nat) :
    patchItems inc n i [] = ([], []) := by
  simp [patchItems]

theorem patchItems_cons_none {inc : JVal} {n : String} {i : Nat} {it : Item}
    {rest : List Item} (h : imapLookup inc i = none) :
    patchItems inc n i (it :: rest) =
      (it :: (patchItems inc n (i + 1) rest).1, (patchItems inc n (i + 1) rest).2) := by
  simp only [patchItems]
  split
  · rfl
  · rename_i jv2 heq
    rw [h] at heq
    exact Option.noConfusion heq

theorem patchItems_cons_state {inc : JVal} {n : String} {i : Nat} {sub : StateObj}
    {rest : List Item} {jv : JVal} (h : imapLookup inc i = some jv) :
    patchItems inc n i (Item.state sub :: rest) =
      (Item.state (update_state_from_dict sub (asRecord jv)).1 ::
         (patchItems inc n (i + 1) rest).1,
       Event.subUpdate n i :: (patchItems inc n (i + 1) rest).2) := by
  simp only [patchItems]
  split
  · rename_i heq
    rw [h] at heq
    exact Option.noConfusion heq
  · rename_i jv2 heq
    rw [h] at heq
    injection heq with h4
    subst h4
    rfl

theorem patchItems_cons_plain {inc : JVal} {n : String} {i : Nat} {w : JVal}
    {rest : List Item} {jv : JVal} (h : imapLookup inc i = some jv) :
    patchItems inc n i (Item.plain w :: rest) =
      (Item.plain jv :: (patchItems inc n (i + 1) rest).1,
       Event.setIndex n i jv :: (patchItems inc n (i + 1) rest).2) := by
  simp only [patchItems]
  split
  · rename_i heq
    rw [h] at heq
    exact Option.noConfusion heq
  · rename_i jv2 heq
    rw [h] at heq
    injection heq with h4
    subst h4
    rfl

/-! ## Lookup and assignment lemmas -/

@[simp] theorem props_mk (ps : List (String × Int × PropVal)) :
    (StateObj.mk ps).props = ps := rfl

theorem lookupProp_setPropList_ne {name name' : String} (v : PropVal)
    (h : name' ≠ name) :
    ∀ ps, lookupProp (setPropList name v ps) name' = lookupProp ps name' := by
  intro ps
  induction ps with
  | nil => simp [setPropList]
  | cons hd tl ih =>
      obtain ⟨n, p, old⟩ := hd
      by_cases hn : n = name
      · have hne : ¬ n = name' := fun hh => h (hh ▸ hn)
        simp only [setPropList, if_pos hn, lookupProp, if_neg hne]
      · simp only [setPropList, if_neg hn, lookupProp]
        by_cases hn' : n = name'
        · simp [hn']
        · simp [hn', ih]

theorem lookupProp_setPropList_self {name : String} (v : PropVal) :
    ∀ ps, lookupProp (setPropList name v ps) name =
      (lookupProp ps name).map (fun e => (e.1, v)) := by
  intro ps
  induction ps with
  | nil => simp [setPropList, lookupProp]
  | cons hd tl ih =>
      obtain ⟨n, p, old⟩ := hd
      by_cases hn : n = name
      · simp only [setPropList, if_pos hn, lookupProp, if_pos hn]
        rfl
      · simp only [setPropList, if_neg hn, lookupProp, if_neg hn, ih]

@[simp] theorem props_setProp (s : StateObj) (name : String) (v : PropVal) :
    (setProp s name v).props = setPropList name v s.props := rfl

theorem getProp_setProp_ne {s : StateObj} {name name' : String} {v : PropVal}
    (h : name' ≠ name) : getProp (setProp s name v) name' = getProp s name' := by
  simp only [getProp, props_setProp, lookupProp_setPropList_ne v h s.props]

theorem getProp_setProp_self {s : StateObj} {name : String} {v : PropVal}
    (h : is_callback_property s name = true) :
    getProp (setProp s name v) name = some v := by
  simp only [is_callback_property, Option.isSome_iff_exists] at h
  obtain ⟨e, he⟩ := h
  obtain ⟨p, w⟩ := e
  simp only [getProp, props_setProp, lookupProp_setPropList_self v s.props, he]
  rfl

theorem is_callback_setProp (s : StateObj) (name n : String) (v : PropVal) :
    is_callback_property (setProp s name v) n = is_callback_property s n := by
  by_cases h : n = name
  · subst h
    simp only [is_callback_property, props_setProp,
      lookupProp_setPropList_self v s.props]
    cases lookupProp s.props n <;> rfl
  · simp only [is_callback_property, props_setProp,
      lookupProp_setPropList_ne v h s.props]

theorem update_priority_setProp (s : StateObj) (name n : String) (v : PropVal) :
    update_priority (setProp s name v) n = update_priority s n := by
  by_cases h : n = name
  · subst h
    simp only [update_priority, props_setProp,
      lookupProp_setPropList_self v s.props]
    cases lookupProp s.props n <;> rfl
  · simp only [update_priority, props_setProp,
      lookupProp_setPropList_ne v h s.props]

/-! ## Locality: patching one name touches no other property -/

theorem applyName_fst_shape (s : StateObj) (c : List (String × JVal)) (n : String) :
    (applyName s c n).1 = s ∨ ∃ v, (applyName s c n).1 = setProp s n v := by
  cases hd : dictLookup c n with
  | none => exact Or.inl (by rw [applyName_no_key hd])
  | some inc =>
      cases hg : getProp s n with
      | none => exact Or.inl (by rw [applyName_unknown hd hg])
      | some pv =>
          cases pv with
          | scalar old =>
              cases hm : isMagic inc with
              | true => exact Or.inl (by rw [applyName_scalar_magic hd hg hm])
              | false =>
                  exact Or.inr ⟨_, by rw [applyName_scalar_assign hd hg hm]⟩
          | clist items => exact Or.inr ⟨_, by rw [applyName_clist hd hg]⟩

theorem getProp_applyName_ne {s : StateObj} {c : List (String × JVal)} {n m : String}
    (h : m ≠ n) : getProp (applyName s c n).1 m = getProp s m := by
  rcases applyName_fst_shape s c n with he | ⟨v, he⟩
  · rw [he]
  · rw [he, getProp_setProp_ne h]

theorem is_callback_applyName (s : StateObj) (c : List (String × JVal)) (n m : String) :
    is_callback_property (applyName s c n).1 m = is_callback_property s m := by
  rcases applyName_fst_shape s c n with he | ⟨v, he⟩
  · rw [he]
  · rw [he, is_callback_setProp]

theorem update_priority_applyName (s : StateObj) (c : List (String × JVal)) (n m : String) :
    update_priority (applyName s c n).1 m = update_priority s m := by
  rcases applyName_fst_shape s c n with he | ⟨v, he⟩
  · rw [he]
  · rw [he, update_priority_setProp]

theorem getProp_applyNames_notMem {c : List (String × JVal)} {m : String} :
    ∀ (names : List String) (s : StateObj), m ∉ names →
      getProp (applyNames s c names).1 m = getProp s m := by
  intro names
  induction names with
  | nil => intro s _; rw [applyNames_nil]
  | cons n rest ih =>
      intro s hm
      rw [applyNames_cons]
      have h1 : m ≠ n := fun hh => hm (hh ▸ List.mem_cons_self n rest)
      have h2 : m ∉ rest := fun hh => hm (List.mem_cons_of_mem n hh)
      rw [ih _ h2, getProp_applyName_ne h1]

theorem is_callback_applyNames (c : List (String × JVal)) (m : String) :
    ∀ (names : List String) (s : StateObj),
      is_callback_property (applyNames s c names).1 m = is_callback_property s m := by
  intro names
  induction names with
  | nil => intro s; rw [applyNames_nil]
  | cons n rest ih =>
      intro s
      rw [applyNames_cons, ih, is_callback_applyName]

theorem update_priority_applyNames (c : List (String × JVal)) (m : String) :
    ∀ (names : List String) (s : StateObj),
      update_priority (applyNames s c names).1 m = update_priority s m := by
  intro names
  induction names with
  | nil => intro s; rw [applyNames_nil]
  | cons n rest ih =>
      intro s
      rw [applyNames_cons, ih, update_priority_applyName]

/-! ## Sorting and grouping lemmas -/

theorem insertDesc_perm (x : Int) (l : List Int) : (insertDesc x l).Perm (x :: l) := by
  induction l with
  | nil => exact List.Perm.refl _
  | cons y ys ih =>
      simp only [insertDesc]
      split
      · exact List.Perm.refl _
      · exact (ih.cons y).trans (List.Perm.swap x y ys)

theorem sortDesc_perm (l : List Int) : (sortDesc l).Perm l := by
  induction l with
  | nil => exact List.Perm.refl _
  | cons x xs ih => exact (insertDesc_perm x (sortDesc xs)).trans (ih.cons x)

theorem pairwise_insertDesc {x : Int} {l : List Int}
    (h : l.Pairwise (fun a b => b ≤ a)) :
    (insertDesc x l).Pairwise (fun a b => b ≤ a) := by
  induction l with
  | nil => simp [insertDesc]
  | cons y ys ih =>
      rcases List.pairwise_cons.1 h with ⟨hy, hys⟩
      simp only [insertDesc]
      split
      · rename_i hxy
        refine List.pairwise_cons.2 ⟨?_, h⟩
        intro b hb
        rcases List.mem_cons.1 hb with rfl | hb
        · exact hxy
        · exact le_trans (hy b hb) hxy
      · rename_i hxy
        refine List.pairwise_cons.2 ⟨?_, ih hys⟩
        intro b hb
        rcases List.mem_cons.1 ((insertDesc_perm x ys).mem_iff.1 hb) with rfl | hb
        · exact le_of_lt (lt_of_not_le hxy)
        · exact hy b hb

theorem pairwise_sortDesc (l : List Int) :
    (sortDesc l).Pairwise (fun a b => b ≤ a) := by
  induction l with
  | nil => simp [sortDesc]
  | cons x xs ih => exact pairwise_insertDesc ih

theorem mem_recognizedNames {s : StateObj} {c : List (String × JVal)} {n : String} :
    n ∈ recognizedNames s c ↔ n ∈ c.map Prod.fst ∧ is_callback_property s n = true := by
  simp [recognizedNames, List.mem_filter]

theorem mem_processOrder {s : StateObj} {c : List (String × JVal)} {n : String} :
    n ∈ processOrder s c ↔ n ∈ recognizedNames s c := by
  constructor
  · intro h
    rcases List.mem_flatMap.1 h with ⟨p, _, hn⟩
    exact (List.mem_filter.1 hn).1
  · intro h
    apply List.mem_flatMap.2
    refine ⟨update_priority s n, ?_, ?_⟩
    · apply (sortDesc_perm _).mem_iff.2
      apply List.mem_dedup.2
      exact List.mem_map.2 ⟨n, h, rfl⟩
    · exact List.mem_filter.2 ⟨h, by simp⟩

theorem pairwise_processOrder (s : StateObj) (c : List (String × JVal)) :
    (processOrder s c).Pairwise
      (fun a b => update_priority s b ≤ update_priority s a) := by
  apply List.pairwise_flatMap.2
  constructor
  · intro p _
    apply List.pairwise_of_forall_mem_list
    intro x hx y hy
    have hxp : update_priority s x = p := by
      have := (List.mem_filter.1 hx).2
      simpa using this
    have hyp : update_priority s y = p := by
      have := (List.mem_filter.1 hy).2
      simpa using this
    rw [hxp, hyp]
  · apply (pairwise_sortDesc (groupPriorities s c)).imp
    intro p q hpq x hx y hy
    have hxp : update_priority s x = p := by
      have := (List.mem_filter.1 hx).2
      simpa using this
    have hyq : update_priority s y = q := by
      have := (List.mem_filter.1 hy).2
      simpa using this
    rw [hxp, hyq]
    exact hpq

theorem nodup_mem_split {α : Type} {l : List α} {a : α} (hnd : l.Nodup)
    (hm : a ∈ l) : ∃ l1 l2, l = l1 ++ a :: l2 ∧ a ∉ l1 ∧ a ∉ l2 := by
  rcases List.append_of_mem hm with ⟨l1, l2, rfl⟩
  rcases List.nodup_append.1 hnd with ⟨_, h2, h3⟩
  refine ⟨l1, l2, rfl, ?_, ?_⟩
  · intro hc
    exact h3 hc (List.mem_cons_self a l2)
  · intro hc
    exact (List.nodup_cons.1 h2).1 hc

/-! ## Event provenance: every event is tagged with the name being patched -/

theorem patchItems_events_name (inc : JVal) (n : String) :
    ∀ (items : List Item) (i : Nat), ∀ e ∈ (patchItems inc n i items).2, e.name = n := by
  intro items
  induction items with
  | nil =>
      intro i e he
      rw [patchItems_nil] at he
      simp at he
  | cons it rest ih =>
      intro i e he
      cases hl : imapLookup inc i with
      | none =>
          rw [patchItems_cons_none hl] at he
          exact ih (i + 1) e he
      | some jv =>
          cases it with
          | state sub =>
              rw [patchItems_cons_state hl] at he
              rcases List.mem_cons.1 he with rfl | he
              · rfl
              · exact ih (i + 1) e he
          | plain w =>
              rw [patchItems_cons_plain hl] at he
              rcases List.mem_cons.1 he with rfl | he
              · rfl
              · exact ih (i + 1) e he

theorem applyName_events_name (s : StateObj) (c : List (String × JVal)) (n : String) :
    ∀ e ∈ (applyName s c n).2, e.name = n := by
  intro e he
  cases hd : dictLookup c n with
  | none =>
      rw [applyName_no_key hd] at he
      simp at he
  | some inc =>
      cases hg : getProp s n with
      | none =>
          rw [applyName_unknown hd hg] at he
          simp at he
      | some pv =>
          cases pv with
          | scalar old =>
              cases hm : isMagic inc with
              | true =>
                  rw [applyName_scalar_magic hd hg hm] at he
                  simp at he
              | false =>
                  rw [applyName_scalar_assign hd hg hm] at he
                  rcases List.mem_cons.1 he with rfl | he
                  · rfl
                  · simp at he
          | clist items =>
              rw [applyName_clist hd hg] at he
              exact patchItems_events_name inc n items 0 e he

theorem applyNames_events_mem (c : List (String × JVal)) :
    ∀ (names : List String) (s : StateObj),
      ∀ e ∈ (applyNames s c names).2, e.name ∈ names := by
  intro names
  induction names with
  | nil =>
      intro s e he
      rw [applyNames_nil] at he
      simp at he
  | cons n rest ih =>
      intro s e he
      rw [applyNames_cons] at he
      rcases List.mem_append.1 he with he | he
      · rw [applyName_events_name s c n e he]
        exact List.mem_cons_self n rest
      · exact List.mem_cons_of_mem n (ih _ e he)

theorem applyNames_trace_pairwise (c : List (String × JVal)) (prioF : String → Int) :
    ∀ (names : List String) (s : StateObj),
      (∀ m, update_priority s m = prioF m) →
      names.Pairwise (fun a b => prioF b ≤ prioF a) →
      ((applyNames s c names).2).Pairwise
        (fun e1 e2 => prioF e2.name ≤ prioF e1.name) := by
  intro names
  induction names with
  | nil =>
      intro s _ _
      rw [applyNames_nil]
      exact List.Pairwise.nil
  | cons n rest ih =>
      intro s hprio hp
      rcases List.pairwise_cons.1 hp with ⟨hhead, htail⟩
      rw [applyNames_cons]
      apply List.pairwise_append.2
      refine ⟨?_, ?_, ?_⟩
      · apply List.pairwise_of_forall_mem_list
        intro x hx y hy
        rw [applyName_events_name s c n x hx, applyName_events_name s c n y hy]
      · apply ih
        · intro m
          rw [update_priority_applyName, hprio]
        · exact htail
      · intro x hx y hy
        rw [applyName_events_name s c n x hx]
        exact hhead _ (applyNames_events_mem c rest _ y hy)

/-! ## Sentinel preservation at scalar positions -/

theorem isMagic_true : isMagic (JVal.prim (Val.str MAGIC_IGNORE)) = true := by
  simp [isMagic]

theorem applyNames_magic_scalar (c : List (String × JVal)) (name : String) (v : JVal)
    (h2 : dictLookup c name = some (JVal.prim (Val.str MAGIC_IGNORE))) :
    ∀ (names : List String) (s : StateObj),
      getProp s name = some (PropVal.scalar v) →
      getProp (applyNames s c names).1 name = some (PropVal.scalar v) := by
  intro names
  induction names with
  | nil =>
      intro s hs
      rw [applyNames_nil]
      exact hs
  | cons n rest ih =>
      intro s hs
      rw [applyNames_cons]
      by_cases hn : name = n
      · subst hn
        rw [ih _ (by rw [applyName_scalar_magic h2 hs isMagic_true]; exact hs)]
      · apply ih
        rw [getProp_applyName_ne hn]
        exact hs

theorem processOrder_nodup {s : StateObj} {c : List (String × JVal)}
    (h : (c.map Prod.fst).Nodup) : (processOrder s c).Nodup := by
  have hrec : (recognizedNames s c).Nodup := h.filter _
  apply List.nodup_flatMap.2
  constructor
  · intro p _
    exact hrec.filter _
  · have hnd : (sortDesc (groupPriorities s c)).Nodup :=
      ((sortDesc_perm _).nodup_iff).2 (List.nodup_dedup _)
    apply hnd.imp
    intro p q hpq
    intro x hxp hxq
    have h1 : update_priority s x = p := by
      have := (List.mem_filter.1 hxp).2
      simpa using this
    have h2 : update_priority s x = q := by
      have := (List.mem_filter.1 hxq).2
      simpa using this
    exact hpq (h1 ▸ h2)

/-! ## Update-level invariance lemmas -/

theorem getProp_update_notMem {s : StateObj} {c : List (String × JVal)} {name : String}
    (h : name ∉ c.map Prod.fst) :
    getProp (update_state_from_dict s c).1 name = getProp s name := by
  cases hc : c.isEmpty with
  | true =>
      rw [List.isEmpty_iff.1 hc, update_empty]
  | false =>
      rw [update_nonempty s hc]
      apply getProp_applyNames_notMem
      intro hmem
      exact h (mem_recognizedNames.1 (mem_processOrder.1 hmem)).1

theorem is_callback_update (s : StateObj) (c : List (String × JVal)) (m : String) :
    is_callback_property (update_state_from_dict s c).1 m = is_callback_property s m := by
  cases hc : c.isEmpty with
  | true => rw [List.isEmpty_iff.1 hc, update_empty]
  | false =>
      rw [update_nonempty s hc]
      exact is_callback_applyNames c m _ s

/-! ## Claims -/

/-- Concrete state for the C1 counterexample: one collection-valued
property `a` holding the plain value `5` at index 0. -/
def cexState : StateObj :=
  StateObj.mk [("a", 0, PropVal.clist [Item.plain (JVal.prim (Val.int 5))])]

/-- Concrete change record for the C1 counterexample: the sentinel string
at index 0 of property `a`'s sub-mapping. -/
def cexRecord : List (String × JVal) :=
  [("a", JVal.imap [(0, JVal.prim (Val.str MAGIC_IGNORE))])]

/-- C1 (counterexample): patching a collection-valued property whose
sub-mapping holds the sentinel string at an index whose live item is not a
nested state object DOES assign the sentinel onto live state: the claim
that the sentinel is never assigned at any position is false. -/
theorem sentinel_assigned_in_collection_cex :
    getProp (update_state_from_dict cexState cexRecord).1 "a" =
      some (PropVal.clist [Item.plain (JVal.prim (Val.str MAGIC_IGNORE))]) ∧
    getProp cexState "a" =
      some (PropVal.clist [Item.plain (JVal.prim (Val.int 5))]) ∧
    getProp (update_state_from_dict cexState cexRecord).1 "a" ≠
      getProp cexState "a" := by
  have hdl : dictLookup cexRecord "a" =
      some (JVal.imap [(0, JVal.prim (Val.str MAGIC_IGNORE))]) := rfl
  have hgp : getProp cexState "a" =
      some (PropVal.clist [Item.plain (JVal.prim (Val.int 5))]) := rfl
  have hil : imapLookup (JVal.imap [(0, JVal.prim (Val.str MAGIC_IGNORE))]) 0 =
      some (JVal.prim (Val.str MAGIC_IGNORE)) := rfl
  have hu : (update_state_from_dict cexState cexRecord).1 =
      StateObj.mk [("a", 0, PropVal.clist [Item.plain (JVal.prim (Val.str MAGIC_IGNORE))])] := by
    rw [update_nonempty cexState (show cexRecord.isEmpty = false from rfl)]
    rw [show processOrder cexState cexRecord = ["a"] from rfl]
    rw [applyNames_cons, applyNames_nil]
    rw [applyName_clist hdl hgp]
    rw [patchItems_cons_plain hil, patchItems_nil]
    rfl
  refine ⟨by rw [hu]; rfl, rfl, by rw [hu]; simp [getProp, lookupProp, cexState]⟩

/-- C1 (amended): the sentinel guard applies at scalar positions: patching
any state with a record that carries the sentinel string as the incoming
value of a scalar-valued property leaves that property's live value
unchanged.  (At indices inside a collection-valued property's sub-mapping
whose live item is not a nested state object, the incoming value — the
sentinel included — is assigned, as the counterexample shows.) -/
theorem sentinel_inert_for_scalars (s : StateObj) (c : List (String × JVal))
    (name : String) (v : JVal)
    (h1 : getProp s name = some (PropVal.scalar v))
    (h2 : dictLookup c name = some (JVal.prim (Val.str MAGIC_IGNORE))) :
    getProp (update_state_from_dict s c).1 name = some (PropVal.scalar v) := by
  cases hc : c.isEmpty with
  | true =>
      rw [List.isEmpty_iff.1 hc] at h2
      simp [dictLookup] at h2
  | false =>
      rw [update_nonempty s hc]
      exact applyNames_magic_scalar c name v h2 _ s h1

/-- C1 (witness for the amended theorem). -/
theorem sentinel_inert_for_scalars_witness :
    getProp (update_state_from_dict
        (StateObj.mk [("b", 0, PropVal.scalar (JVal.prim (Val.int 7)))])
        [("b", JVal.prim (Val.str MAGIC_IGNORE))]).1 "b" =
      some (PropVal.scalar (JVal.prim (Val.int 7))) :=
  sentinel_inert_for_scalars
    (StateObj.mk [("b", 0, PropVal.scalar (JVal.prim (Val.int 7)))])
    [("b", JVal.prim (Val.str MAGIC_IGNORE))] "b" (JVal.prim (Val.int 7)) rfl rfl

/-- C2: the events fired by `update_state_from_dict` are ordered by
descending declared priority of the property they belong to: every
assignment of a higher-priority group happens before every assignment of a
lower-priority group, whatever the insertion order of the record's keys. -/
theorem patch_priority_order_desc (s : StateObj) (c : List (String × JVal)) :
    ((update_state_from_dict s c).2).Pairwise
      (fun e1 e2 => update_priority s e2.name ≤ update_priority s e1.name) := by
  cases hc : c.isEmpty with
  | true =>
      rw [List.isEmpty_iff.1 hc, update_empty]
      exact List.Pairwise.nil
  | false =>
      rw [update_nonempty s hc]
      exact applyNames_trace_pairwise c (update_priority s) (processOrder s c) s
        (fun _ => rfl) (pairwise_processOrder s c)

/-- C5: patch-back only touches properties named in the record — a
property whose name is absent keeps its prior value — and the empty record
is a guaranteed no-op: the state is returned unchanged and no event is
fired. -/
theorem patch_frame_property (s : StateObj) (c : List (String × JVal))
    (name : String) (h : name ∉ c.map Prod.fst) :
    getProp (update_state_from_dict s c).1 name = getProp s name ∧
    update_state_from_dict s [] = (s, []) :=
  ⟨getProp_update_notMem h, update_empty s⟩

/-- C5 (witness). -/
theorem patch_frame_property_witness :
    getProp (update_state_from_dict
        (StateObj.mk [("a", 0, PropVal.scalar (JVal.prim (Val.int 1)))])
        [("b", JVal.prim (Val.int 2))]).1 "a" =
      getProp (StateObj.mk [("a", 0, PropVal.scalar (JVal.prim (Val.int 1)))]) "a" ∧
    update_state_from_dict
        (StateObj.mk [("a", 0, PropVal.scalar (JVal.prim (Val.int 1)))]) [] =
      (StateObj.mk [("a", 0, PropVal.scalar (JVal.prim (Val.int 1)))], []) :=
  patch_frame_property
    (StateObj.mk [("a", 0, PropVal.scalar (JVal.prim (Val.int 1)))])
    [("b", JVal.prim (Val.int 2))] "a" (by simp)

/-- C6: keys of the record that the state does not recognize as callback
properties are silently ignored: a record holding only such a key is a
complete no-op, no error is raised (the patcher is a total function), and
no property is ever created for such a key. -/
theorem unknown_keys_ignored (s : StateObj) (c : List (String × JVal))
    (name : String) (jv : JVal) (h : is_callback_property s name = false) :
    update_state_from_dict s [(name, jv)] = (s, []) ∧
    is_callback_property (update_state_from_dict s c).1 name = false := by
  constructor
  · rw [update_nonempty s
      (show ([(name, jv)] : List (String × JVal)).isEmpty = false from rfl)]
    rw [show processOrder s [(name, jv)] = [] from by
      simp [processOrder, groupPriorities, recognizedNames, h, sortDesc]]
    rw [applyNames_nil]
  · rw [is_callback_update]
    exact h

/-- C6 (witness): the spec's own example, patching with
`{"doesNotExist": 5}`. -/
theorem unknown_keys_ignored_witness :
    update_state_from_dict
        (StateObj.mk [("a", 0, PropVal.scalar (JVal.prim (Val.int 1)))])
        [("doesNotExist", JVal.prim (Val.int 5))] =
      (StateObj.mk [("a", 0, PropVal.scalar (JVal.prim (Val.int 1)))], []) :=
  (unknown_keys_ignored
    (StateObj.mk [("a", 0, PropVal.scalar (JVal.prim (Val.int 1)))])
    [] "doesNotExist" (JVal.prim (Val.int 5)) rfl).1

/-! ## Characterization of list patching (C4) -/

/-- What one pass of the `for i in range(len(callback_list))` loop does to
the live item at absolute index `k`: nothing when `k` is not a key of the
incoming sub-mapping; otherwise recurse for nested states and assign the
raw incoming value for plain items. -/
def patchedItem (inc : JVal) (k : Nat) (it : Item) : Item :=
  match imapLookup inc k, it with
  | none, it2 => it2
  | some jv, Item.state sub => Item.state (update_state_from_dict sub (asRecord jv)).1
  | some jv, Item.plain _ => Item.plain jv

theorem patchItems_length (inc : JVal) (nm : String) :
    ∀ (items : List Item) (i : Nat),
      ((patchItems inc nm i items).1).length = items.length := by
  intro items
  induction items with
  | nil => intro i; rw [patchItems_nil]
  | cons it rest ih =>
      intro i
      cases hl : imapLookup inc i with
      | none => rw [patchItems_cons_none hl]; simp [ih]
      | some jv =>
          cases it with
          | state sub => rw [patchItems_cons_state hl]; simp [ih]
          | plain w => rw [patchItems_cons_plain hl]; simp [ih]

theorem patchItems_get (inc : JVal) (nm : String) :
    ∀ (items : List Item) (i j : Nat),
      ((patchItems inc nm i items).1)[j]? = (items[j]?).map (patchedItem inc (i + j)) := by
  intro items
  induction items with
  | nil => intro i j; rw [patchItems_nil]; simp
  | cons it rest ih =>
      intro i j
      cases hl : imapLookup inc i with
      | none =>
          rw [patchItems_cons_none hl]
          cases j with
          | zero => simp [patchedItem, hl]
          | succ j =>
              simp only [List.getElem?_cons_succ]
              rw [ih (i + 1) j, show i + 1 + j = i + (j + 1) from by omega]
      | some jv =>
          cases it with
          | state sub =>
              rw [patchItems_cons_state hl]
              cases j with
              | zero => simp [patchedItem, hl]
              | succ j =>
                  simp only [List.getElem?_cons_succ]
                  rw [ih (i + 1) j, show i + 1 + j = i + (j + 1) from by omega]
          | plain w =>
              rw [patchItems_cons_plain hl]
              cases j with
              | zero => simp [patchedItem, hl]
              | succ j =>
                  simp only [List.getElem?_cons_succ]
                  rw [ih (i + 1) j, show i + 1 + j = i + (j + 1) from by omega]

theorem dictLookup_mem {c : List (String × JVal)} {name : String} {v : JVal}
    (h : dictLookup c name = some v) : name ∈ c.map Prod.fst := by
  induction c with
  | nil => simp [dictLookup] at h
  | cons hd tl ih =>
      obtain ⟨k, w⟩ := hd
      rw [dictLookup] at h
      by_cases hk : k = name
      · subst hk
        simp
      · rw [if_neg hk] at h
        simp only [List.map_cons, List.mem_cons]
        exact Or.inr (ih h)

theorem applyNames_append (c : List (String × JVal)) :
    ∀ (l1 l2 : List String) (s : StateObj),
      (applyNames s c (l1 ++ l2)).1 = (applyNames (applyNames s c l1).1 c l2).1 := by
  intro l1
  induction l1 with
  | nil => intro l2 s; rw [applyNames_nil]; rfl
  | cons n rest ih =>
      intro l2 s
      rw [List.cons_append, applyNames_cons, applyNames_cons]
      exact ih l2 _

theorem is_callback_of_getProp {s : StateObj} {name : String} {v : PropVal}
    (h : getProp s name = some v) : is_callback_property s name = true := by
  simp only [getProp] at h
  simp only [is_callback_property]
  cases hl : lookupProp s.props name with
  | none => rw [hl] at h; simp at h
  | some e => rfl

theorem getProp_update_clist {s : StateObj} {c : List (String × JVal)}
    {name : String} {items : List Item} {inc : JVal}
    (hnd : (c.map Prod.fst).Nodup)
    (hg : getProp s name = some (PropVal.clist items))
    (hd : dictLookup c name = some inc) :
    getProp (update_state_from_dict s c).1 name =
      some (PropVal.clist (patchItems inc name 0 items).1) := by
  have hcb : is_callback_property s name = true := is_callback_of_getProp hg
  have hkeys : name ∈ c.map Prod.fst := dictLookup_mem hd
  have hmem : name ∈ processOrder s c :=
    mem_processOrder.2 (mem_recognizedNames.2 ⟨hkeys, hcb⟩)
  have hc : c.isEmpty = false := by
    cases c with
    | nil => simp [dictLookup] at hd
    | cons a b => rfl
  rcases nodup_mem_split (processOrder_nodup hnd) hmem with ⟨l1, l2, heq, h1, h2⟩
  rw [update_nonempty s hc, heq, applyNames_append]
  have hg1 : getProp (applyNames s c l1).1 name = some (PropVal.clist items) := by
    rw [getProp_applyNames_notMem l1 s h1]
    exact hg
  rw [applyNames_cons]
  rw [getProp_applyNames_notMem l2 _ h2]
  rw [applyName_clist hd hg1]
  apply getProp_setProp_self
  rw [is_callback_applyNames]
  exact hcb

/-! ## Serializer lemmas -/

theorem mem_serializeProps_keys (name : String) :
    ∀ ps : List (String × Int × PropVal),
      name ∈ (serializeProps ps).map Prod.fst ↔
        ((lookupProp ps name).isSome = true ∧ underscorePrefixed name = false) := by
  intro ps
  induction ps with
  | nil => simp [serializeProps, lookupProp]
  | cons hd tl ih =>
      obtain ⟨n, p, v⟩ := hd
      by_cases hn : n = name
      · subst hn
        cases hu : underscorePrefixed n with
        | true => simp [serializeProps, hu, lookupProp, ih]
        | false => simp [serializeProps, hu, lookupProp]
      · have hn2 : ¬ name = n := fun hh => hn hh.symm
        cases hu : underscorePrefixed n with
        | true => simp [serializeProps, hu, lookupProp, hn, hn2, ih]
        | false => simp [serializeProps, hu, lookupProp, hn, hn2, ih]

theorem dictLookup_serializeProps (name : String) (hns : underscorePrefixed name = false) :
    ∀ (ps : List (String × Int × PropVal)) (p : Int) (v : PropVal),
      lookupProp ps name = some (p, v) →
      dictLookup (serializeProps ps) name = some (serializeProp v) := by
  intro ps
  induction ps with
  | nil =>
      intro p v h
      simp [lookupProp] at h
  | cons hd tl ih =>
      obtain ⟨n, p0, v0⟩ := hd
      intro p v h
      by_cases hn : n = name
      · rw [lookupProp, if_pos hn] at h
        injection h with h2
        rw [show v0 = v from congrArg Prod.snd h2] at *
        simp [serializeProps, dictLookup, hn, hns]
      · rw [lookupProp, if_neg hn] at h
        cases hu : underscorePrefixed n with
        | true => simp only [serializeProps, hu, if_true]; exact ih p v h
        | false =>
            simp only [serializeProps, hu]
            rw [if_neg (by simp), dictLookup, if_neg hn]
            exact ih p v h

theorem serializeItems_keys :
    ∀ (items : List Item) (i : Nat),
      (serializeItems i items).map Prod.fst = List.range' i items.length := by
  intro items
  induction items with
  | nil => intro i; simp [serializeItems]
  | cons it rest ih =>
      intro i
      rw [serializeItems, List.length_cons, List.range'_succ]
      simp [ih]

theorem assocNat_serializeItems :
    ∀ (items : List Item) (i j : Nat) (h : j < items.length),
      assocNat (serializeItems i items) (i + j) =
        some (serializeItem (items.get ⟨j, h⟩)) := by
  intro items
  induction items with
  | nil =>
      intro i j h
      simp at h
  | cons it rest ih =>
      intro i j h
      cases j with
      | zero => simp [serializeItems, assocNat]
      | succ j =>
          rw [serializeItems]
          rw [assocNat, if_neg (by omega)]
          rw [show i + (j + 1) = (i + 1) + j from by omega]
          exact ih (i + 1) j (by simpa using h)

/-- C7: the keys of `state_to_dict` are exactly the observable (callback)
property names of the state that do not start with an underscore: no such
name is omitted and no other key appears. -/
theorem state_to_dict_keys (s : StateObj) (name : String) :
    name ∈ (state_to_dict s).map Prod.fst ↔
      (is_callback_property s name = true ∧ underscorePrefixed name = false) := by
  cases s with
  | mk ps =>
      simpa [state_to_dict, is_callback_property] using mem_serializeProps_keys name ps

/-- C8: a collection-valued observable property (with a name the
serializer covers, i.e. not underscore-prefixed) serializes to an
index-keyed mapping, never a bare sequence: its key maps to an `imap`
whose keys are exactly the 0-based positions `0..n-1` and whose value at
each position is the item, recursively serialized when the item is a
nested state; an empty collection yields the empty mapping under its key,
not an omitted key. -/
theorem collection_serializes_indexed (s : StateObj) (name : String) (p : Int)
    (items : List Item)
    (h : lookupProp s.props name = some (p, PropVal.clist items))
    (hns : underscorePrefixed name = false) :
    dictLookup (state_to_dict s) name = some (JVal.imap (serializeItems 0 items)) ∧
    (serializeItems 0 items).map Prod.fst = List.range items.length ∧
    (∀ j (hj : j < items.length),
      assocNat (serializeItems 0 items) j = some (serializeItem (items.get ⟨j, hj⟩))) ∧
    (items = [] → dictLookup (state_to_dict s) name = some (JVal.imap [])) := by
  have h1 : dictLookup (state_to_dict s) name =
      some (serializeProp (PropVal.clist items)) := by
    cases s with
    | mk ps => exact dictLookup_serializeProps name hns ps p _ h
  refine ⟨h1, ?_, ?_, ?_⟩
  · rw [serializeItems_keys items 0, List.range_eq_range']
  · intro j hj
    have := assocNat_serializeItems items 0 j hj
    simpa using this
  · intro he
    subst he
    exact h1

/-- Concrete two-item collection (one plain value, one nested state) for
the C8 witness. -/
def wLayers : List Item :=
  [Item.plain (JVal.prim (Val.int 10)),
   Item.state (StateObj.mk [("x", 0, PropVal.scalar (JVal.prim (Val.int 3)))])]

/-- Concrete state with a two-item collection property for the C8 witness. -/
def wLayerState : StateObj := StateObj.mk [("layers", 1, PropVal.clist wLayers)]

/-- Concrete state with an empty collection property for the C8 witness. -/
def wEmptyState : StateObj := StateObj.mk [("empty", 0, PropVal.clist [])]

/-- C8 (witness): a two-item collection (one plain value, one nested state)
and an empty collection. -/
theorem collection_serializes_indexed_witness :
    dictLookup (state_to_dict wLayerState) "layers" =
      some (JVal.imap (serializeItems 0 wLayers)) ∧
    dictLookup (state_to_dict wEmptyState) "empty" = some (JVal.imap []) :=
  ⟨(collection_serializes_indexed wLayerState "layers" 1 wLayers rfl (by decide)).1,
   (collection_serializes_indexed wEmptyState "empty" 0 [] rfl (by decide)).2.2.2 rfl⟩

/-- C4: sparse collection patch.  For a collection-valued property of
length `n` whose key carries sub-mapping `inc`, patching produces a
collection of the same length (never resized, and the patcher is a total
function, so out-of-range indices raise no error); items at indices absent
from `inc` are unchanged; items at present indices `j < n` are patched —
recursively when the live item is a nested state, by direct assignment of
the raw incoming value otherwise; present indices `>= n` are silently
skipped (there is nothing at them and the length is unchanged). -/
theorem sparse_collection_patch (s : StateObj) (c : List (String × JVal))
    (name : String) (items : List Item) (inc : JVal)
    (hnd : (c.map Prod.fst).Nodup)
    (hg : getProp s name = some (PropVal.clist items))
    (hd : dictLookup c name = some inc) :
    ∃ items',
      getProp (update_state_from_dict s c).1 name = some (PropVal.clist items') ∧
      items'.length = items.length ∧
      (∀ j, imapLookup inc j = none → items'[j]? = items[j]?) ∧
      (∀ j jv, imapLookup inc j = some jv →
        items'[j]? = (items[j]?).map (fun it =>
          match it with
          | Item.state sub => Item.state (update_state_from_dict sub (asRecord jv)).1
          | Item.plain _ => Item.plain jv)) := by
  refine ⟨(patchItems inc name 0 items).1, getProp_update_clist hnd hg hd,
    patchItems_length inc name items 0, ?_, ?_⟩
  · intro j hj
    rw [patchItems_get inc name items 0 j]
    cases hi : items[j]? with
    | none => rfl
    | some it => simp [patchedItem, hj]
  · intro j jv hj
    rw [patchItems_get inc name items 0 j]
    cases hi : items[j]? with
    | none => rfl
    | some it =>
        cases it with
        | state sub => simp [patchedItem, hj]
        | plain w => simp [patchedItem, hj]

/-- Concrete three-item collection of nested states for the C4 witness. -/
def wSparseItems : List Item :=
  [Item.state (StateObj.mk [("v", 0, PropVal.scalar (JVal.prim (Val.int 0)))]),
   Item.state (StateObj.mk [("v", 0, PropVal.scalar (JVal.prim (Val.int 1)))]),
   Item.state (StateObj.mk [("v", 0, PropVal.scalar (JVal.prim (Val.int 2)))])]

/-- Concrete state holding the three-item collection for the C4 witness. -/
def wSparseState : StateObj := StateObj.mk [("coll", 0, PropVal.clist wSparseItems)]

/-- Concrete sub-mapping mentioning only index 1 and the out-of-range
index 5, for the C4 witness (the spec's own example). -/
def wSparseInc : JVal :=
  JVal.imap [(1, JVal.smap [("v", JVal.prim (Val.int 99))]),
             (5, JVal.prim (Val.int 42))]

/-- C4 (witness): patching the three-item collection with a record that
mentions only index 1 and the out-of-range index 5. -/
theorem sparse_collection_patch_witness :
    ∃ items',
      getProp (update_state_from_dict wSparseState [("coll", wSparseInc)]).1 "coll" =
        some (PropVal.clist items') ∧
      items'.length = wSparseItems.length ∧
      items'[0]? = wSparseItems[0]? ∧
      items'[2]? = wSparseItems[2]? := by
  obtain ⟨items', h1, h2, h3, _⟩ :=
    sparse_collection_patch wSparseState [("coll", wSparseInc)] "coll" wSparseItems
      wSparseInc (by simp) rfl rfl
  exact ⟨items', h1, h2, h3 0 rfl, h3 2 rfl⟩

/-! ## Round-trip machinery (C3) -/

theorem isMagic_of_primitive {jv : JVal} (h : isPrimitive jv = true) :
    isMagic jv = false := by
  cases jv with
  | prim v =>
      cases v with
      | str s =>
          simp only [isPrimitive, decide_eq_true_eq] at h
          simp [isMagic, h]
      | int n => rfl
      | bool b => rfl
      | null => rfl
  | smap l => rfl
  | imap l => rfl

theorem shapeMatchItem_plain {x y : Item} (h : shapeMatchItem x y = true) :
    ∃ w, y = Item.plain w := by
  cases x with
  | state _ =>
      cases y with
      | state _ => simp [shapeMatchItem] at h
      | plain wy => simp [shapeMatchItem] at h
  | plain wx =>
      cases y with
      | state _ => simp [shapeMatchItem] at h
      | plain wy => exact ⟨wy, rfl⟩

theorem primitiveItem_plain {it : Item} (h : primitiveItem it = true) :
    ∃ w, it = Item.plain w ∧ isPrimitive w = true := by
  cases it with
  | state _ => simp [primitiveItem] at h
  | plain w => exact ⟨w, rfl, h⟩

theorem zip_self_all_shape :
    ∀ items : List Item, items.all primitiveItem = true →
      ((items.zip items).all fun e => shapeMatchItem e.1 e.2) = true := by
  intro items
  induction items with
  | nil => intro _; rfl
  | cons it rest ih =>
      intro h
      simp only [List.all_cons, Bool.and_eq_true] at h
      obtain ⟨h1, h2⟩ := h
      obtain ⟨w, rfl, _⟩ := primitiveItem_plain h1
      simp only [List.zip_cons_cons, List.all_cons, Bool.and_eq_true]
      exact ⟨by trivial, ih h2⟩

theorem shapeMatchProp_refl_of_primitive {v : PropVal}
    (h : primitiveProp v = true) : shapeMatchProp v v = true := by
  cases v with
  | scalar jv => rfl
  | clist items =>
      have h2 : items.all primitiveItem = true := by simpa [primitiveProp] using h
      simp only [shapeMatchProp, Bool.and_eq_true, decide_eq_true_eq]
      exact ⟨by trivial, zip_self_all_shape items h2⟩

theorem zip_all_right_plain :
    ∀ (xs ys : List Item), xs.length = ys.length →
      ((xs.zip ys).all fun e => shapeMatchItem e.1 e.2) = true →
      ∀ y ∈ ys, ∃ w, y = Item.plain w := by
  intro xs
  induction xs with
  | nil =>
      intro ys hlen _ y hy
      cases ys with
      | nil => simp at hy
      | cons _ _ => simp at hlen
  | cons x xs' ih =>
      intro ys hlen hall y hy
      cases ys with
      | nil => simp at hy
      | cons y0 ys' =>
          simp only [List.zip_cons_cons, List.all_cons, Bool.and_eq_true] at hall
          rcases List.mem_cons.1 hy with rfl | hy
          · exact shapeMatchItem_plain hall.1
          · exact ih ys' (by simpa using hlen) hall.2 y hy

theorem patchItems_plain_assign (inc : JVal) (nm : String) :
    ∀ (ws vs : List Item) (i : Nat),
      ws.length = vs.length →
      (∀ j, j < ws.length → ∃ jv,
        imapLookup inc (i + j) = some jv ∧ vs[j]? = some (Item.plain jv)) →
      (∀ it ∈ ws, ∃ w, it = Item.plain w) →
      (patchItems inc nm i ws).1 = vs := by
  intro ws
  induction ws with
  | nil =>
      intro vs i hlen _ _
      rw [patchItems_nil]
      cases vs with
      | nil => rfl
      | cons _ _ => simp at hlen
  | cons w0 ws' ih =>
      intro vs i hlen hidx hplain
      cases vs with
      | nil => simp at hlen
      | cons v0 vs' =>
          obtain ⟨jv, hl0, hv0⟩ := hidx 0 (by simp)
          rw [Nat.add_zero] at hl0
          have hv0' : v0 = Item.plain jv := by simpa using hv0
          obtain ⟨w, rfl⟩ := hplain w0 (List.mem_cons_self _ _)
          rw [patchItems_cons_plain hl0]
          have hrest : (patchItems inc nm (i + 1) ws').1 = vs' := by
            apply ih vs' (i + 1)
            · simpa using hlen
            · intro j hj
              obtain ⟨jv2, h1, h2⟩ := hidx (j + 1) (by simpa using Nat.succ_lt_succ hj)
              refine ⟨jv2, ?_, ?_⟩
              · rw [show i + 1 + j = i + (j + 1) from by omega]
                exact h1
              · simpa using h2
            · intro it hit
              exact hplain it (List.mem_cons_of_mem _ hit)
          rw [hrest, hv0']

theorem applyName_restore (s : StateObj) (c : List (String × JVal)) (name : String)
    (v : PropVal)
    (hlook : dictLookup c name = some (serializeProp v))
    (hprim : primitiveProp v = true)
    (w : PropVal) (hw : getProp s name = some w)
    (hsm : shapeMatchProp v w = true) :
    getProp (applyName s c name).1 name = some v := by
  have hcb : is_callback_property s name = true := is_callback_of_getProp hw
  cases v with
  | scalar jv =>
      cases w with
      | clist ws => simp [shapeMatchProp] at hsm
      | scalar w0 =>
          have hm : isMagic jv = false :=
            isMagic_of_primitive (by simpa [primitiveProp] using hprim)
          rw [applyName_scalar_assign (show dictLookup c name = some jv from hlook) hw hm]
          exact getProp_setProp_self hcb
  | clist items =>
      cases w with
      | scalar w0 => simp [shapeMatchProp] at hsm
      | clist ws =>
          simp only [shapeMatchProp, Bool.and_eq_true, decide_eq_true_eq] at hsm
          obtain ⟨hlen, hall⟩ := hsm
          have hprimAll : items.all primitiveItem = true := by
            simpa [primitiveProp] using hprim
          rw [applyName_clist
            (show dictLookup c name = some (JVal.imap (serializeItems 0 items)) from hlook) hw]
          have hassign :
              (patchItems (JVal.imap (serializeItems 0 items)) name 0 ws).1 = items := by
            apply patchItems_plain_assign
            · exact hlen.symm
            · intro j hj
              have hj2 : j < items.length := by omega
              have hpi : primitiveItem (items.get ⟨j, hj2⟩) = true := by
                have h1 := hprimAll
                simp only [List.all_eq_true] at h1
                exact h1 _ (items.get_mem _ _)
              obtain ⟨jw, hge, _⟩ := primitiveItem_plain hpi
              refine ⟨jw, ?_, ?_⟩
              · have ha := assocNat_serializeItems items 0 j hj2
                rw [hge] at ha
                show assocNat (serializeItems 0 items) (0 + j) = some jw
                rw [ha]
                rfl
              · rw [List.getElem?_eq_getElem hj2]
                rw [show items[j] = items.get ⟨j, hj2⟩ from rfl, hge]
            · exact zip_all_right_plain items ws hlen hall
          rw [hassign]
          exact getProp_setProp_self hcb

theorem applyNames_keeps_restored (c : List (String × JVal)) (name : String)
    (v : PropVal)
    (hlook : dictLookup c name = some (serializeProp v))
    (hprim : primitiveProp v = true) :
    ∀ (names : List String) (s : StateObj), getProp s name = some v →
      getProp (applyNames s c names).1 name = some v := by
  intro names
  induction names with
  | nil =>
      intro s hs
      rw [applyNames_nil]
      exact hs
  | cons n rest ih =>
      intro s hs
      rw [applyNames_cons]
      apply ih
      by_cases hn : name = n
      · subst hn
        exact applyName_restore s c name v hlook hprim v hs
          (shapeMatchProp_refl_of_primitive hprim)
      · rw [getProp_applyName_ne hn]
        exact hs

theorem applyNames_restores (c : List (String × JVal)) (name : String) (v : PropVal)
    (hlook : dictLookup c name = some (serializeProp v))
    (hprim : primitiveProp v = true) :
    ∀ (names : List String) (s : StateObj), name ∈ names →
      (∃ w, getProp s name = some w ∧ shapeMatchProp v w = true) →
      getProp (applyNames s c names).1 name = some v := by
  intro names
  induction names with
  | nil =>
      intro s hmem _
      simp at hmem
  | cons n rest ih =>
      intro s hmem hcur
      obtain ⟨w, hw, hsm⟩ := hcur
      rw [applyNames_cons]
      by_cases hn : name = n
      · subst hn
        exact applyNames_keeps_restored c name v hlook hprim rest _
          (applyName_restore s c name v hlook hprim w hw hsm)
      · have hmem2 : name ∈ rest := by
          rcases List.mem_cons.1 hmem with h | h
          · exact absurd h hn
          · exact h
        exact ih _ hmem2 ⟨w, by rw [getProp_applyName_ne hn]; exact hw, hsm⟩

theorem lookupProp_mem : ∀ {ps : List (String × Int × PropVal)} {name : String}
    {p : Int} {v : PropVal},
    lookupProp ps name = some (p, v) → (name, p, v) ∈ ps := by
  intro ps
  induction ps with
  | nil =>
      intro name p v h
      simp [lookupProp] at h
  | cons hd tl ih =>
      intro name p v h
      obtain ⟨n, p0, v0⟩ := hd
      rw [lookupProp] at h
      by_cases hn : n = name
      · rw [if_pos hn] at h
        injection h with h2
        subst hn
        rw [← h2]
        exact List.mem_cons_self _ _
      · rw [if_neg hn] at h
        exact List.mem_cons_of_mem _ (ih h)

theorem shapeMatch_lookup_aux :
    ∀ (psa psb : List (String × Int × PropVal)),
      psa.length = psb.length →
      ((psa.zip psb).all fun e =>
        e.1.1 = e.2.1 && e.1.2.1 = e.2.2.1 && shapeMatchProp e.1.2.2 e.2.2.2) = true →
      ∀ (name : String) (p : Int) (v : PropVal),
        lookupProp psa name = some (p, v) →
        ∃ w, lookupProp psb name = some (p, w) ∧ shapeMatchProp v w = true := by
  intro psa
  induction psa with
  | nil =>
      intro psb _ _ name p v h
      simp [lookupProp] at h
  | cons ea tla ih =>
      intro psb hlen hall name p v h
      cases psb with
      | nil => simp at hlen
      | cons eb tlb =>
          obtain ⟨n1, p1, v1⟩ := ea
          obtain ⟨n2, p2, v2⟩ := eb
          simp only [List.zip_cons_cons, List.all_cons, Bool.and_eq_true,
            decide_eq_true_eq] at hall
          obtain ⟨⟨⟨h1, h2⟩, h3⟩, hrest⟩ := hall
          rw [lookupProp] at h
          by_cases hn : n1 = name
          · rw [if_pos hn] at h
            injection h with h2inj
            have hn2 : n2 = name := by rw [← h1]; exact hn
            have hp : p2 = p := by rw [← h2]; exact congrArg Prod.fst h2inj
            refine ⟨v2, ?_, ?_⟩
            · rw [lookupProp, if_pos hn2, hp]
            · rw [show v = v1 from (congrArg Prod.snd h2inj).symm]
              exact h3
          · rw [if_neg hn] at h
            have hn2 : ¬ n2 = name := by rw [← h1]; exact hn
            rw [lookupProp, if_neg hn2]
            exact ih tlb (by simpa using hlen) hrest name p v h

theorem shapeMatch_lookup {a b : StateObj} (h : shapeMatch a b = true)
    {name : String} {p : Int} {v : PropVal}
    (hl : lookupProp a.props name = some (p, v)) :
    ∃ w, lookupProp b.props name = some (p, w) ∧ shapeMatchProp v w = true := by
  simp only [shapeMatch, Bool.and_eq_true, decide_eq_true_eq] at h
  exact shapeMatch_lookup_aux a.props b.props h.1 h.2 name p v hl

/-- C3: round-trip identity.  For a state whose observable properties hold
only primitive values (scalars other than the sentinel string, and
collections of such scalars — the sentinel stands in for opaque
references, which the claim excludes), none of whose property names is
underscore-prefixed (the serializer covers exactly those names, spec
§3/§4.1), serializing with `state_to_dict` and patching a fresh
default-constructed state of the same shape with the result makes every
observable property of the fresh state equal to the original's value. -/
theorem roundtrip_primitive_state (orig fresh : StateObj)
    (hprim : primitiveState orig = true)
    (hshape : shapeMatch orig fresh = true)
    (hser : allSerializable orig = true) :
    ∀ name, is_callback_property orig name = true →
      getProp (update_state_from_dict fresh (state_to_dict orig)).1 name =
        getProp orig name := by
  intro name hcb
  obtain ⟨e, he⟩ := Option.isSome_iff_exists.1
    (show (lookupProp orig.props name).isSome = true from hcb)
  obtain ⟨p, v⟩ := e
  have hmm : (name, p, v) ∈ orig.props := lookupProp_mem he
  have hns : underscorePrefixed name = false := by
    have h1 := hser
    simp only [allSerializable, List.all_eq_true] at h1
    simpa using h1 _ hmm
  have hprimv : primitiveProp v = true := by
    have h1 := hprim
    simp only [primitiveState, List.all_eq_true] at h1
    simpa using h1 _ hmm
  have hlook : dictLookup (state_to_dict orig) name = some (serializeProp v) := by
    cases orig with
    | mk ps => exact dictLookup_serializeProps name hns ps p v he
  obtain ⟨w, hwl, hsm⟩ := shapeMatch_lookup hshape he
  have hwg : getProp fresh name = some w := by simp [getProp, hwl]
  have hcbf : is_callback_property fresh name = true := is_callback_of_getProp hwg
  have hkeys : name ∈ (state_to_dict orig).map Prod.fst := dictLookup_mem hlook
  have hmemPO : name ∈ processOrder fresh (state_to_dict orig) :=
    mem_processOrder.2 (mem_recognizedNames.2 ⟨hkeys, hcbf⟩)
  have hc : (state_to_dict orig).isEmpty = false := by
    cases hsd : state_to_dict orig with
    | nil => rw [hsd] at hkeys; simp at hkeys
    | cons a b => rfl
  rw [update_nonempty fresh hc]
  rw [show getProp orig name = some v from by simp [getProp, he]]
  exact applyNames_restores (state_to_dict orig) name v hlook hprimv _ fresh
    hmemPO ⟨w, hwg, hsm⟩

/-- Concrete original state for the C3 witness: a primitive scalar and a
collection of two primitive values. -/
def wOrig : StateObj :=
  StateObj.mk [("a", 0, PropVal.scalar (JVal.prim (Val.int 7))),
               ("b", 1, PropVal.clist [Item.plain (JVal.prim (Val.str "x")),
                                       Item.plain (JVal.prim (Val.int 2))])]

/-- Concrete fresh default-constructed state of the same shape for the C3
witness (different default values). -/
def wFresh : StateObj :=
  StateObj.mk [("a", 0, PropVal.scalar (JVal.prim (Val.int 0))),
               ("b", 1, PropVal.clist [Item.plain (JVal.prim Val.null),
                                       Item.plain (JVal.prim (Val.int 0))])]

/-- C3 (witness): the hypotheses hold of the concrete pair and both
properties of the patched fresh state equal the original's values. -/
theorem roundtrip_primitive_state_witness :
    primitiveState wOrig = true ∧ shapeMatch wOrig wFresh = true ∧
    allSerializable wOrig = true ∧
    getProp (update_state_from_dict wFresh (state_to_dict wOrig)).1 "a" =
      getProp wOrig "a" ∧
    getProp (update_state_from_dict wFresh (state_to_dict wOrig)).1 "b" =
      getProp wOrig "b" :=
  ⟨by decide, by decide, by decide,
   roundtrip_primitive_state wOrig wFresh (by decide) (by decide) (by decide) "a" rfl,
   roundtrip_primitive_state wOrig wFresh (by decide) (by decide) (by decide) "b" rfl⟩

/-- C9 (counterexample): `validate` does reject non-state values with a
`TraitError`, but its message is "value should be a glue State instance",
not "value should be a state instance" as the claim states. -/
theorem validate_message_cex :
    GlueState.validate (SlotValue.other (Val.int 5)) =
      Except.error "value should be a glue State instance" ∧
    "value should be a glue State instance" ≠ "value should be a state instance" :=
  ⟨rfl, by decide⟩

/-- C9 (amended): `validate` accepts a value unchanged exactly when it is
`None` or a state instance; any other value raises a `TraitError` with the
message "value should be a glue State instance"; no value is ever
coerced. -/
theorem validate_spec (v : SlotValue) :
    (GlueState.validate v = Except.ok v ↔
      (v = SlotValue.pynone ∨ ∃ st, v = SlotValue.state st)) ∧
    (∀ w, GlueState.validate v = Except.ok w → w = v) ∧
    (¬ (v = SlotValue.pynone ∨ ∃ st, v = SlotValue.state st) →
      GlueState.validate v =
        Except.error "value should be a glue State instance") := by
  cases v with
  | pynone => exact ⟨by simp [GlueState.validate], by simp [GlueState.validate], by simp⟩
  | state st =>
      refine ⟨by simp [GlueState.validate], ?_, by simp⟩
      intro w hw
      simpa [GlueState.validate] using hw.symm
  | other w =>
      refine ⟨by simp [GlueState.validate], by simp [GlueState.validate], ?_⟩
      intro _
      rfl

/-- C9 (witness for the amended theorem). -/
theorem validate_spec_witness :
    GlueState.validate (SlotValue.other (Val.int 3)) =
      Except.error "value should be a glue State instance" :=
  (validate_spec (SlotValue.other (Val.int 3))).2.2 (by simp)

/-- C10: `validate` accepts `None`, but `GlueState.set` calls
`add_global_callback` on the stored value with no `None` guard, so
assigning `None` always raises after the store, and callback registration
succeeds exactly when the assigned value is an actual state object. -/
theorem set_none_raises :
    GlueState.validate SlotValue.pynone = Except.ok SlotValue.pynone ∧
    (GlueState.set SlotValue.pynone).error.isSome = true ∧
    (∀ v : SlotValue, ((GlueState.set v).error = none ↔ ∃ st, v = SlotValue.state st)) := by
  refine ⟨rfl, rfl, ?_⟩
  intro v
  cases v <;> simp [GlueState.set]

end GlueJupyter
